import Mathlib

/-!
Shallow embedding of the AVL-based ordered map in `src/avl.h` (namespace
`mystl`, class `avl<Key, Value>`), instantiated at `Key = Nat`,
`Value = String` (the instantiation exercised by the repository's tests).

Representation. The C++ tree is a pointer structure in which every internal
node has exactly two children and "absence" is a real external node with
stored height 0 (externals are only ever created by `node()` which zeroes
`height`, so an external's stored height is always 0). The super-root
sentinel (`avl::root`) carries no data: its `left` child is the true root.
We model the data tree under the super-root as an inductive `Node`; the
super-root itself only matters for iteration and is modelled by the zipper
positions below (`Pos.atEnd` is the super-root / `end()` position).

`size_t` heights are modelled as `Nat`.  `is_balanced` computes
`int bal = l->height - r->height` on `size_t` operands; for the height
values that actually occur (far below `2^31`) this equals signed
subtraction, which we model with `Int`.
-/

namespace MystlAvl

/-- Tree node: `ext` is an external (leaf-sentinel) node, `int` an internal
node carrying its `value` pair (`value.first`, `value.second`), children and
the stored `height` field. -/
inductive Node where
  | ext : Node
  | int : (Nat × String) → Node → Node → Nat → Node
deriving Repr, DecidableEq

/-- Stored `height` field of a node: external nodes are always constructed
with height 0 (`node()` constructor). -/
def heightOf : Node → Nat
  | .ext => 0
  | .int _ _ _ h => h

/-- Nonrecursive check `is_external` from the source (both children null). -/
def Node.isExt : Node → Bool
  | .ext => true
  | .int _ _ _ _ => false

/-- Check `is_internal` from the source. -/
def Node.isInt (n : Node) : Bool := !n.isExt

/-- In-order list of the stored entries of a subtree. -/
def inorder : Node → List (Nat × String)
  | .ext => []
  | .int p l r _ => inorder l ++ p :: inorder r

/-- In-order list of keys. -/
def keysOf (n : Node) : List Nat := (inorder n).map Prod.fst

/-- Binary-search-tree order invariant, stated as strict sortedness of the
in-order key sequence (equivalent to the structural left < node < right
condition). -/
def isBST (n : Node) : Prop := (keysOf n).Pairwise (· < ·)

instance (n : Node) : Decidable (isBST n) := by
  unfold isBST; infer_instance

/-- Transcription of `node::set_height`: `height = 1 + max(hl, hr)` from the
children's stored heights.  On an external node the C++ code would
dereference null children (this never happens on a completed call path we
verify); the model leaves externals unchanged. -/
def set_height : Node → Node
  | .ext => .ext
  | .int p l r _ => .int p l r (1 + max (heightOf l) (heightOf r))

/-- Transcription of `avl::is_balanced`: `bal = l->height - r->height`
(signed, see header comment); balanced iff `-1 <= bal <= 1`. -/
def is_balanced (n : Node) : Bool :=
  match n with
  | .ext => true
  | .int _ l r _ =>
      decide (-1 ≤ (heightOf l : Int) - (heightOf r : Int)
        ∧ (heightOf l : Int) - (heightOf r : Int) ≤ 1)

/-- Transcription of `avl::tall_grandchild` followed by `avl::restructure`,
acting on the subtree rooted at the unbalanced node `z`.  The taller child
`y` is chosen by `zl->height >= zr->height` (tie to the left); the tall
grandchild `x` by `zl->left->height >= zl->right->height` on the left side
and `zr->right->height >= zr->left->height` on the right side.  The four
`restructure` cases produce the in-order relabeling `a, b, c` with `b` the
new subtree root and the middle subtrees transplanted exactly as in the
source; stored heights are carried along unchanged (`restructure` never
writes heights — `rebalance` recomputes them afterwards).  The `ext`
fallbacks correspond to null dereferences in the C++ (`tall_grandchild`
reading children of an external); they are unreachable from the states the
theorems below quantify over and the model returns the subtree unchanged
there. -/
def restructureAt : Node → Node
  | .ext => .ext
  | .int zp zl zr zh =>
    if heightOf zr ≤ heightOf zl then
      match zl with
      | .ext => .int zp zl zr zh
      | .int yp yl yr yh =>
        if heightOf yr ≤ heightOf yl then
          .int yp yl (.int zp yr zr zh) yh
        else
          match yr with
          | .ext => .int zp (.int yp yl yr yh) zr zh
          | .int xp xl xr xh =>
              .int xp (.int yp yl xl yh) (.int zp xr zr zh) xh
    else
      match zr with
      | .ext => .int zp zl zr zh
      | .int yp yl yr yh =>
        if heightOf yl ≤ heightOf yr then
          .int yp (.int zp zl yl zh) yr yh
        else
          match yl with
          | .ext => .int zp zl (.int yp yl yr yh) zh
          | .int xp xl xr xh =>
              .int xp (.int zp zl xl zh) (.int yp xr yr yh) xh

/-- One iteration of the loop body of `avl::rebalance` at an ancestor `z` of
the mutated node: `z->set_height()`, then if `z` is unbalanced, restructure
the trinode under `z` and recompute the heights of the new root's children
and of the new root. -/
def rebalanceStep (n : Node) : Node :=
  if is_balanced (set_height n) then set_height n
  else
    match restructureAt (set_height n) with
    | .ext => .ext
    | .int p l r h => set_height (.int p (set_height l) (set_height r) h)

/-- Transcription of `avl::finder`: descend from the true root, stopping at
an external node or at the node whose key equals `k` (`k < key` goes left,
otherwise right).  Returns the node reached. -/
def finderNode : Node → Nat → Node
  | .ext, _ => .ext
  | .int p l r h, k =>
    if p.1 = k then .int p l r h
    else if k < p.1 then finderNode l k else finderNode r k

/-- Transcription of `avl::inserter` combined with the upward walk of
`avl::rebalance`.  At an external node: `expand()` (two fresh external
children, `set_height` giving height 1) and `replace(v)`; the walk of
`rebalance` then applies `rebalanceStep` at every proper ancestor on the
path back to (and including) the true root, which is exactly the return
path of this recursion.  If the key is found at an internal node, nothing
is mutated.  The third component is the `value` of the node returned by
`inserter` (the C++ returns a pointer to it). -/
def inserterNode : Node → Nat → String → Node × Bool × (Nat × String)
  | .ext, k, v => (.int (k, v) .ext .ext 1, true, (k, v))
  | .int p l r h, k, v =>
    if k = p.1 then (.int p l r h, false, p)
    else if k < p.1 then
      if (inserterNode l k v).2.1 then
        (rebalanceStep (.int p (inserterNode l k v).1 r h), true,
          (inserterNode l k v).2.2)
      else (.int p l r h, false, (inserterNode l k v).2.2)
    else
      if (inserterNode r k v).2.1 then
        (rebalanceStep (.int p l (inserterNode r k v).1 h), true,
          (inserterNode r k v).2.2)
      else (.int p l r h, false, (inserterNode r k v).2.2)

/-- Removal of the leftmost internal node of a subtree — this is the
two-internal-children branch of `avl::eraser`: `w = n->inorder_next()`
(the leftmost internal node of the right subtree), the node's value is
overwritten with `w->value`, and then `w->left->remove_above_external()`
promotes `w`'s right child into `w`'s position.  No stored height on the
spine is updated (`eraser` performs no height bookkeeping).  Returns the
removed node's value, the new subtree and the promoted sibling (the node
pointer `remove_above_external` returns).  The `ext` case is unreachable
(callers pass internal nodes). -/
def eraseLeftmostS : Node → (Nat × String) × Node × Node
  | .ext => ((0, ""), .ext, .ext)
  | .int p .ext r _ => (p, r, r)
  | .int p (.int q ll lr lh) r h =>
    ((eraseLeftmostS (.int q ll lr lh)).1,
      .int p (eraseLeftmostS (.int q ll lr lh)).2.1 r h,
      (eraseLeftmostS (.int q ll lr lh)).2.2)

/-- Transcription of `avl::eraser` applied to the node holding key `k`
(reached by the same comparisons as `finder`).  If the node's left child is
external, its sibling (the right child) is promoted into its place; else if
the right child is external, the left child is promoted; else the in-order
successor's value replaces the node's value and the successor's position is
removed.  Returns the new subtree and the node `eraser` returns (the
promoted sibling `w->remove_above_external()`).  No rebalancing and no
height updates are performed (`eraser` calls neither `rebalance` nor
`set_height`). -/
def eraserGo : Node → Nat → Node × Node
  | .ext, _ => (.ext, .ext)
  | .int p l r h, k =>
    if p.1 = k then
      if l.isExt then (r, r)
      else if r.isExt then (l, l)
      else
        (.int (eraseLeftmostS r).1 l (eraseLeftmostS r).2.1 h,
          (eraseLeftmostS r).2.2)
    else if k < p.1 then
      ((.int p (eraserGo l k).1 r h : Node), (eraserGo l k).2)
    else
      ((.int p l (eraserGo r k).1 h : Node), (eraserGo r k).2)

/-- Transcription of the write `n->value.second = w` through the node
pointer `inserter`/`operator[]` hands back for a present key: the node
holding `k` is the one `finder`'s comparisons reach, and only its mapped
value changes. -/
def writeValue : Node → Nat → String → Node
  | .ext, _, _ => .ext
  | .int p l r h, k, w =>
    if p.1 = k then .int (p.1, w) l r h
    else if k < p.1 then .int p (writeValue l k w) r h
    else .int p l (writeValue r k w) h

/-- Transcription of the node copy constructor `node(const node&)`: the
value is copied and, when the source is internal, both children are
recursively cloned; the `height` member is never written (it is absent from
the constructor's initializer list), so each copied node's height is
indeterminate — modelled by an arbitrary junk value `j`. -/
def copyNode (j : Nat) : Node → Node
  | .ext => .ext
  | .int p l r _ => .int p (copyNode j l) (copyNode j r) j

/-- Map object `avl<Nat, String>`: the true root (`root->left` in the
source) together with the redundant `sz` counter. -/
structure AVL where
  root : Node
  sz : Nat
deriving Repr, DecidableEq

/-- Default-constructed map: super-root expanded, true root external,
size 0. -/
def AVL.empty : AVL := ⟨.ext, 0⟩

/-- Transcription of `avl::insert` / `avl::inserter`'s public effect:
`inserter` runs, and `sz` is incremented exactly when a new node was
created.  Result: (new map, inserted flag, value of the returned node). -/
def AVL.insert (t : AVL) (k : Nat) (v : String) : AVL × Bool × (Nat × String) :=
  ((⟨(inserterNode t.root k v).1,
      if (inserterNode t.root k v).2.1 then t.sz + 1 else t.sz⟩ : AVL),
    (inserterNode t.root k v).2.1, (inserterNode t.root k v).2.2)

/-- Transcription of `avl::erase(const Key&)`: `finder`, and only when the
node found is internal is `eraser` invoked (which decrements `sz`); the
return count is 1 exactly in that case. -/
def AVL.erase (t : AVL) (k : Nat) : AVL × Nat :=
  if (finderNode t.root k).isInt then
    ((⟨(eraserGo t.root k).1, t.sz - 1⟩ : AVL), 1)
  else (t, 0)

/-- Transcription of `avl::clear`: the whole tree is deleted and replaced
with a freshly expanded super-root (true root external), `sz = 0`. -/
def AVL.clear (_ : AVL) : AVL := ⟨.ext, 0⟩

/-- Transcription of the copy constructor `avl(const avl&)`: deep node
clone of the whole tree plus the size counter (`j` is the junk height of
the cloned nodes, see `copyNode`). -/
def AVL.copy (j : Nat) (t : AVL) : AVL := ⟨copyNode j t.root, t.sz⟩

/-- Transcription of `avl::operator=`: the guard `this != &m` makes
self-assignment a no-op; otherwise the old tree is destroyed and a deep
copy of the source is installed together with its size.  The `same`
argument is the outcome of the pointer-identity test `this == &m`. -/
def assignOp (dst src : AVL) (same : Bool) (j : Nat) : AVL :=
  if same then dst else ⟨copyNode j src.root, src.sz⟩

/-- Transcription of the read behaviour of `avl::at`: `find(k)` compared to
`end()` — found iff `finder` reaches an internal node; on failure an
`out_of_range` exception is thrown (modelled `none`), otherwise the value
read through the returned reference is the found entry's mapped value. -/
def atRead (t : AVL) (k : Nat) : Option String :=
  match finderNode t.root k with
  | .ext => none
  | .int p _ _ _ => some p.2

/-- Transcription of `m[k] = w` through `avl::operator\x5b\x5d`:
`inserter(make_pair(k, Value()))` (default `String` value is `""`) followed
by a write of `w` through the returned node's `value.second`. -/
def AVL.bracketAssign (t : AVL) (k : Nat) (w : String) : AVL :=
  ⟨writeValue (AVL.insert t k "").1.root k w, (AVL.insert t k "").1.sz⟩

/-- Public operations a client can perform on one map object (inserts,
erases, clear, subscript-assignment, replacement by a deep self-copy). -/
inductive Op where
  | ins : Nat → String → Op
  | del : Nat → Op
  | clr : Op
  | setv : Nat → String → Op
  | cpy : Nat → Op

/-- Apply one public operation. -/
def applyOp (t : AVL) : Op → AVL
  | .ins k v => (AVL.insert t k v).1
  | .del k => (AVL.erase t k).1
  | .clr => AVL.clear t
  | .setv k w => AVL.bracketAssign t k w
  | .cpy j => AVL.copy j t

/-- Run a sequence of public operations from a default-constructed map. -/
def runOps (ops : List Op) : AVL := ops.foldl applyOp AVL.empty

/-- Actual height of a subtree (0 for external), independent of the stored
`height` fields. -/
def realHeight : Node → Nat
  | .ext => 0
  | .int _ l r _ => 1 + max (realHeight l) (realHeight r)

/-- AVL balance property over actual heights: every internal node satisfies
|height(left) − height(right)| ≤ 1. -/
def balancedAll : Node → Bool
  | .ext => true
  | .int _ l r _ =>
      decide (((realHeight l : Int) - (realHeight r : Int)).natAbs ≤ 1)
        && balancedAll l && balancedAll r

/-- Height-correctness property: every internal node's stored `height`
equals `1 + max` of its children's actual heights (externals store 0 by
construction). -/
def heightsOK : Node → Bool
  | .ext => true
  | .int _ l r h =>
      (h == 1 + max (realHeight l) (realHeight r)) && heightsOK l && heightsOK r

/-!
Iterator positions.  A `node*` into the tree is modelled as a zipper: the
subtree under the pointer plus the context of ancestors up to the
super-root.  `Pos.atEnd` is the super-root itself, i.e. `end()`.
-/

/-- Ancestor context of a subtree: `inL p h r c` means the subtree is the
left child of a node with value `p`, stored height `h` and right subtree
`r`, itself in context `c`; `inR` symmetrically; `top` means the subtree is
the true root (left child of the super-root). -/
inductive Ctx where
  | top : Ctx
  | inL : (Nat × String) → Nat → Node → Ctx → Ctx
  | inR : (Nat × String) → Nat → Node → Ctx → Ctx
deriving Repr, DecidableEq

/-- Is the immediately enclosing edge a right-child edge? -/
def Ctx.isR : Ctx → Bool
  | .inR _ _ _ _ => true
  | _ => false

/-- Iterator position: the super-root (`end()`), or an internal node given
by its context, value, children and stored height. -/
inductive Pos where
  | atEnd : Pos
  | cur : Ctx → (Nat × String) → Node → Node → Nat → Pos
deriving Repr, DecidableEq

/-- Position of the parent of the node `n` sitting in context `c` (used by
`node::leftmost`, which returns `n->parent` from the external node it
reaches; the parent of the true root is the super-root, i.e. `end()`). -/
def upPos : Ctx → Node → Pos
  | .top, _ => .atEnd
  | .inL p h r c, n => .cur c p n r h
  | .inR p h l c, n => .cur c p l n h

/-- Transcription of `node::leftmost`: descend left while internal, then
return the parent of the external node reached. -/
def leftmostPos : Ctx → Node → Pos
  | c, .int p l r h => leftmostPos (.inL p h r c) l
  | c, .ext => upPos c .ext

/-- Climbing loop of `node::inorder_next`: while the current node is its
parent's right child, move up; the first ancestor reached through a left
edge is the successor (the super-root, i.e. `end()`, if none). -/
def climbPos : Ctx → Node → Pos
  | .inR p h l c, n => climbPos c (.int p l n h)
  | .inL p h r c, n => .cur c p n r h
  | .top, _ => .atEnd

/-- Transcription of `node::inorder_next` at the internal node
`(c, p, l, r, h)`: if the right child is internal, the successor is the
leftmost internal node of the right subtree, otherwise climb. -/
def nextPos (c : Ctx) (p : Nat × String) (l r : Node) (h : Nat) : Pos :=
  match r with
  | .int q rl rr rh => leftmostPos (.inR p h l c) (.int q rl rr rh)
  | .ext => climbPos c (.int p l .ext h)

/-- Transcription of `avl::begin`: `root->leftmost()` — the leftmost
internal node under the super-root (the super-root itself when the tree is
empty). -/
def beginPos (t : Node) : Pos := leftmostPos .top t

/-- Forward iteration: starting from a position, repeatedly dereference and
advance with `inorder_next` until `end()` is reached (fuel-bounded; the
theorems provide enough fuel). -/
def iterFuel : Nat → Pos → List (Nat × String)
  | 0, _ => []
  | _ + 1, .atEnd => []
  | f + 1, .cur c p l r h => p :: iterFuel f (nextPos c p l r h)

/-- Entries an in-order walk still visits after finishing the subtree that
sits in context `c`. -/
def ctxRest : Ctx → List (Nat × String)
  | .top => []
  | .inL p _ r c => p :: (inorder r ++ ctxRest c)
  | .inR _ _ _ c => ctxRest c

/-- Entries an in-order walk still visits from a position (the current
entry, its right subtree, then the pending ancestors). -/
def remaining : Pos → List (Nat × String)
  | .atEnd => []
  | .cur c p _ r _ => p :: (inorder r ++ ctxRest c)

/-- Sorted-position insertion of a fresh entry into an in-order list (the
list-level effect of a successful `inserter`). -/
def insEntry (k : Nat) (v : String) : List (Nat × String) → List (Nat × String)
  | [] => [(k, v)]
  | p :: l => if k < p.1 then (k, v) :: p :: l else p :: insEntry k v l

/-- Removal of the entry with key `k` from an in-order list (the list-level
effect of `eraser`). -/
def eraseKey (k : Nat) : List (Nat × String) → List (Nat × String)
  | [] => []
  | p :: l => if p.1 = k then l else p :: eraseKey k l

end MystlAvl

namespace MystlAvl

/-- Overwrite, one key at a time, the mapped value of every stored entry of
a map with `w`, each write going through the node reference the container
hands back for that key (the deep-copy isolation scenario of the spec,
which sets every value of a copy to one string). -/
def overwriteAll (t : AVL) (w : String) : AVL :=
  ⟨(keysOf t.root).foldl (fun m k => writeValue m k w) t.root, t.sz⟩

/-- Small concrete map (keys 1, 2, 3) used to instantiate the conditional
theorems at explicit inputs. -/
def sampleMap : AVL := runOps [.ins 2 "b", .ins 1 "a", .ins 3 "c"]

/-! Basic facts about `inorder` and the rebalancing helpers. -/

theorem inorder_set_height (n : Node) : inorder (set_height n) = inorder n := by
  cases n <;> simp [set_height, inorder]

theorem inorder_restructureAt (n : Node) :
    inorder (restructureAt n) = inorder n := by
  cases n with
  | ext => rfl
  | int zp zl zr zh =>
    cases zl with
    | ext =>
      cases zr with
      | ext => simp [restructureAt]
      | int wp wl wr wh =>
        cases wl <;>
          (simp only [restructureAt]; split_ifs <;> simp [inorder, List.append_assoc])
    | int yp yl yr yh =>
      cases zr with
      | ext =>
        cases yr <;>
          (simp only [restructureAt]; split_ifs <;> simp [inorder, List.append_assoc])
      | int wp wl wr wh =>
        cases yr <;> cases wl <;>
          (simp only [restructureAt]; split_ifs <;> simp [inorder, List.append_assoc])

theorem inorder_rebalanceStep (n : Node) :
    inorder (rebalanceStep n) = inorder n := by
  rw [rebalanceStep]
  split
  · exact inorder_set_height n
  · have h := inorder_restructureAt (set_height n)
    have h2 := inorder_set_height n
    split
    next heq =>
      rw [heq] at h
      exact h.trans h2
    next p l r hh heq =>
      rw [heq] at h
      calc inorder (set_height (.int p (set_height l) (set_height r) hh))
          = inorder (set_height l) ++ p :: inorder (set_height r) := by
            simp [set_height, inorder]
        _ = inorder l ++ p :: inorder r := by
            rw [inorder_set_height, inorder_set_height]
        _ = inorder (Node.int p l r hh) := rfl
        _ = inorder (set_height n) := h
        _ = inorder n := h2

/-! Structure of the BST invariant. -/

theorem keysOf_node (p : Nat × String) (l r : Node) (h : Nat) :
    keysOf (.int p l r h) = keysOf l ++ p.1 :: keysOf r := by
  simp [keysOf, inorder]

theorem mem_keysOf_node {k : Nat} {p : Nat × String} {l r : Node} {h : Nat} :
    k ∈ keysOf (.int p l r h) ↔ k ∈ keysOf l ∨ k = p.1 ∨ k ∈ keysOf r := by
  simp [keysOf_node]

theorem isBST_node {p : Nat × String} {l r : Node} {h : Nat} :
    isBST (.int p l r h) ↔
      isBST l ∧ isBST r ∧ (∀ a ∈ keysOf l, a < p.1) ∧ (∀ b ∈ keysOf r, p.1 < b) := by
  unfold isBST
  rw [keysOf_node, List.pairwise_append, List.pairwise_cons]
  constructor
  · rintro ⟨hl, ⟨hr1, hr2⟩, hx⟩
    exact ⟨hl, hr2, fun a ha => hx a ha p.1 (List.mem_cons_self _ _), hr1⟩
  · rintro ⟨hl, hr, hlt, hgt⟩
    refine ⟨hl, ⟨hgt, hr⟩, ?_⟩
    intro a ha b hb
    rcases List.mem_cons.1 hb with hb | hb
    · exact hb ▸ hlt a ha
    · exact lt_trans (hlt a ha) (hgt b hb)

theorem mem_keysOf_iff_mem_inorder {k : Nat} {n : Node} :
    k ∈ keysOf n ↔ ∃ v, (k, v) ∈ inorder n := by
  unfold keysOf
  constructor
  · intro hk
    rcases List.mem_map.1 hk with ⟨p, hp, he⟩
    exact ⟨p.2, by simpa [← he] using hp⟩
  · rintro ⟨v, hv⟩
    exact List.mem_map.2 ⟨(k, v), hv, rfl⟩

theorem pairwise_key_unique {l : List (Nat × String)} {k : Nat} {v v' : String}
    (hp : (l.map Prod.fst).Pairwise (· < ·))
    (h1 : (k, v) ∈ l) (h2 : (k, v') ∈ l) : v = v' := by
  induction l with
  | nil => cases h1
  | cons p l ih =>
    rw [List.map_cons, List.pairwise_cons] at hp
    rcases List.mem_cons.1 h1 with h1 | h1 <;> rcases List.mem_cons.1 h2 with h2 | h2
    · rw [← h1] at h2; exact (Prod.mk.injEq _ _ _ _ ▸ h2).2.symm
    · exfalso
      have := hp.1 k (List.mem_map.2 ⟨(k, v'), h2, rfl⟩)
      rw [← h1] at this
      exact lt_irrefl _ this
    · exfalso
      have := hp.1 k (List.mem_map.2 ⟨(k, v), h1, rfl⟩)
      rw [← h2] at this
      exact lt_irrefl _ this
    · exact ih hp.2 h1 h2

theorem inorder_eq_nil_iff {n : Node} : inorder n = [] ↔ n = .ext := by
  cases n with
  | ext => simp [inorder]
  | int p l r h => simp [inorder]


/-! List-level lemmas about `insEntry` and `eraseKey`. -/

theorem insEntry_append_lt {k : Nat} (v : String) {q : Nat × String}
    (xs ys : List (Nat × String)) (hk : k < q.1) :
    insEntry k v (xs ++ q :: ys) = insEntry k v xs ++ q :: ys := by
  induction xs with
  | nil => simp [insEntry, hk]
  | cons x xs ih =>
    by_cases hx : k < x.1
    · simp [insEntry, hx]
    · simp [insEntry, hx, ih]

theorem insEntry_append_gt {k : Nat} (v : String) {xs : List (Nat × String)}
    (ys : List (Nat × String)) (hk : ∀ x ∈ xs, x.1 < k) :
    insEntry k v (xs ++ ys) = xs ++ insEntry k v ys := by
  induction xs with
  | nil => rfl
  | cons x xs ih =>
    have hx : ¬ k < x.1 := not_lt_of_gt (hk x (List.mem_cons_self _ _))
    have hih := ih (fun y hy => hk y (List.mem_cons_of_mem _ hy))
    simp [insEntry, hx, hih]

theorem mem_insEntry {x : Nat × String} {k : Nat} {v : String}
    {l : List (Nat × String)} :
    x ∈ insEntry k v l ↔ x = (k, v) ∨ x ∈ l := by
  induction l with
  | nil => simp [insEntry]
  | cons p l ih =>
    by_cases hp : k < p.1
    · simp [insEntry, hp]
    · simp only [insEntry, if_neg hp, List.mem_cons, ih]
      tauto

theorem length_insEntry (k : Nat) (v : String) (l : List (Nat × String)) :
    (insEntry k v l).length = l.length + 1 := by
  induction l with
  | nil => rfl
  | cons p l ih =>
    by_cases hp : k < p.1
    · simp [insEntry, hp]
    · simp [insEntry, hp, ih]

theorem pairwise_insEntry {k : Nat} {v : String} {l : List (Nat × String)}
    (hk : ∀ x ∈ l, x.1 ≠ k) (hp : (l.map Prod.fst).Pairwise (· < ·)) :
    ((insEntry k v l).map Prod.fst).Pairwise (· < ·) := by
  induction l with
  | nil => simp [insEntry]
  | cons p l ih =>
    rw [List.map_cons, List.pairwise_cons] at hp
    by_cases hlt : k < p.1
    · simp only [insEntry, if_pos hlt, List.map_cons, List.pairwise_cons]
      refine ⟨?_, hp.1, hp.2⟩
      intro b hb
      rcases List.mem_cons.1 hb with hb | hb
      · exact hb ▸ hlt
      · exact lt_trans hlt (hp.1 b hb)
    · have hne : p.1 ≠ k := hk p (List.mem_cons_self _ _)
      have hgt : p.1 < k := lt_of_le_of_ne (le_of_not_lt hlt) hne
      simp only [insEntry, if_neg hlt, List.map_cons, List.pairwise_cons]
      refine ⟨?_, ih (fun x hx => hk x (List.mem_cons_of_mem _ hx)) hp.2⟩
      intro b hb
      rcases List.mem_map.1 hb with ⟨x, hx, he⟩
      rcases mem_insEntry.1 hx with hx | hx
      · rw [← he, hx]; exact hgt
      · exact he ▸ hp.1 x.1 (List.mem_map.2 ⟨x, hx, rfl⟩)

theorem eraseKey_append_notin {k : Nat} {xs : List (Nat × String)}
    (ys : List (Nat × String)) (hk : ∀ x ∈ xs, x.1 ≠ k) :
    eraseKey k (xs ++ ys) = xs ++ eraseKey k ys := by
  induction xs with
  | nil => rfl
  | cons x xs ih =>
    have hx : x.1 ≠ k := hk x (List.mem_cons_self _ _)
    have hih := ih (fun y hy => hk y (List.mem_cons_of_mem _ hy))
    simp [eraseKey, hx, hih]

theorem eraseKey_append_mem {k : Nat} {xs : List (Nat × String)}
    (ys : List (Nat × String)) (hk : k ∈ xs.map Prod.fst) :
    eraseKey k (xs ++ ys) = eraseKey k xs ++ ys := by
  induction xs with
  | nil => cases hk
  | cons x xs ih =>
    by_cases hx : x.1 = k
    · simp [eraseKey, hx]
    · have hk' : k ∈ xs.map Prod.fst := by
        rcases List.mem_map.1 hk with ⟨y, hy, he⟩
        rcases List.mem_cons.1 hy with hy | hy
        · exact absurd (hy ▸ he) hx
        · exact List.mem_map.2 ⟨y, hy, he⟩
      simp [eraseKey, hx, ih hk']

theorem eraseKey_sublist (k : Nat) (l : List (Nat × String)) :
    List.Sublist (eraseKey k l) l := by
  induction l with
  | nil => exact List.Sublist.refl _
  | cons p l ih =>
    by_cases hp : p.1 = k
    · simp [eraseKey, hp, List.sublist_cons_self p l]
    · simpa [eraseKey, hp] using ih.cons₂ p

theorem length_eraseKey_mem {k : Nat} {l : List (Nat × String)}
    (hk : k ∈ l.map Prod.fst) : (eraseKey k l).length + 1 = l.length := by
  induction l with
  | nil => cases hk
  | cons p l ih =>
    by_cases hp : p.1 = k
    · simp [eraseKey, hp]
    · have hk' : k ∈ l.map Prod.fst := by
        rcases List.mem_map.1 hk with ⟨y, hy, he⟩
        rcases List.mem_cons.1 hy with hy | hy
        · exact absurd (hy ▸ he) hp
        · exact List.mem_map.2 ⟨y, hy, he⟩
      simp [eraseKey, hp, ih hk', Nat.succ_eq_add_one]

theorem map_fst_eraseKey_not_mem {k : Nat} {l : List (Nat × String)}
    (hk : k ∉ l.map Prod.fst) : eraseKey k l = l := by
  induction l with
  | nil => rfl
  | cons p l ih =>
    have hp : p.1 ≠ k := by
      intro h
      exact hk (List.mem_map.2 ⟨p, List.mem_cons_self _ _, h⟩)
    have hk' : k ∉ l.map Prod.fst := by
      intro h
      rcases List.mem_map.1 h with ⟨y, hy, he⟩
      exact hk (List.mem_map.2 ⟨y, List.mem_cons_of_mem _ hy, he⟩)
    simp [eraseKey, hp, ih hk']

/-! Correctness of `finder` on BST-ordered trees. -/

theorem finder_isInt_iff {n : Node} (k : Nat) (hb : isBST n) :
    (finderNode n k).isInt = true ↔ k ∈ keysOf n := by
  induction n with
  | ext => simp [finderNode, Node.isInt, Node.isExt, keysOf, inorder]
  | int p l r h ihl ihr =>
    rcases isBST_node.1 hb with ⟨hl, hr, hlt, hgt⟩
    by_cases hp : p.1 = k
    · simp [finderNode, hp, Node.isInt, Node.isExt, mem_keysOf_node]
    · by_cases hk : k < p.1
      · rw [finderNode, if_neg hp, if_pos hk, ihl hl, mem_keysOf_node]
        constructor
        · exact fun h => Or.inl h
        · rintro (h | h | h)
          · exact h
          · exact absurd h.symm hp
          · exact absurd hk (not_lt_of_gt (hgt k h))
      · rw [finderNode, if_neg hp, if_neg hk, ihr hr, mem_keysOf_node]
        constructor
        · exact fun h => Or.inr (Or.inr h)
        · rintro (h | h | h)
          · exact absurd (hlt k h) (by omega)
          · exact absurd h.symm hp
          · exact h

theorem finder_mem {n : Node} {k : Nat} (hb : isBST n) (hk : k ∈ keysOf n) :
    ∃ v l r h, finderNode n k = .int (k, v) l r h ∧ (k, v) ∈ inorder n := by
  induction n with
  | ext => simp [keysOf, inorder] at hk
  | int p l r h ihl ihr =>
    rcases isBST_node.1 hb with ⟨hl, hr, hlt, hgt⟩
    by_cases hp : p.1 = k
    · have hpe : p = (k, p.2) := by rw [← hp]
      refine ⟨p.2, l, r, h, ?_, ?_⟩
      · rw [finderNode, if_pos hp, ← hpe]
      · rw [← hpe]
        simp [inorder]
    · rcases mem_keysOf_node.1 hk with hkl | hke | hkr
      · have hklt : k < p.1 := hlt k hkl
        rcases ihl hl hkl with ⟨v, l', r', h', hfe, hmem⟩
        refine ⟨v, l', r', h', ?_, ?_⟩
        · rw [finderNode, if_neg hp, if_pos hklt, hfe]
        · simp [inorder, hmem]
      · exact absurd hke.symm hp
      · have hkgt : ¬ k < p.1 := not_lt_of_gt (hgt k hkr)
        rcases ihr hr hkr with ⟨v, l', r', h', hfe, hmem⟩
        refine ⟨v, l', r', h', ?_, ?_⟩
        · rw [finderNode, if_neg hp, if_neg hkgt, hfe]
        · simp [inorder, hmem]

/-! Specification of `inserter`. -/

theorem inserter_found {n : Node} {k : Nat} (v : String)
    (hb : isBST n) (hk : k ∈ keysOf n) :
    ∃ w, inserterNode n k v = (n, false, (k, w)) ∧ (k, w) ∈ inorder n := by
  induction n with
  | ext => simp [keysOf, inorder] at hk
  | int p l r h ihl ihr =>
    rcases isBST_node.1 hb with ⟨hl, hr, hlt, hgt⟩
    by_cases hp : k = p.1
    · have hpe : p = (k, p.2) := by rw [hp]
      refine ⟨p.2, ?_, ?_⟩
      · rw [inserterNode, if_pos hp, ← hpe]
      · rw [← hpe]
        simp [inorder]
    · rcases mem_keysOf_node.1 hk with hkl | hke | hkr
      · have hklt : k < p.1 := hlt k hkl
        rcases ihl hl hkl with ⟨w, hfe, hmem⟩
        refine ⟨w, ?_, by simp [inorder, hmem]⟩
        rw [inserterNode, if_neg hp, if_pos hklt, hfe]
        simp
      · exact absurd hke hp
      · have hkgt : ¬ k < p.1 := not_lt_of_gt (hgt k hkr)
        rcases ihr hr hkr with ⟨w, hfe, hmem⟩
        refine ⟨w, ?_, by simp [inorder, hmem]⟩
        rw [inserterNode, if_neg hp, if_neg hkgt, hfe]
        simp

theorem inserter_absent {n : Node} {k : Nat} (v : String)
    (hb : isBST n) (hk : k ∉ keysOf n) :
    (inserterNode n k v).2.1 = true ∧
      inorder (inserterNode n k v).1 = insEntry k v (inorder n) ∧
      (inserterNode n k v).2.2 = (k, v) := by
  induction n with
  | ext => simp [inserterNode, inorder, insEntry]
  | int p l r h ihl ihr =>
    rcases isBST_node.1 hb with ⟨hl, hr, hlt, hgt⟩
    have hp : k ≠ p.1 := fun he => hk (mem_keysOf_node.2 (Or.inr (Or.inl he)))
    have hkl : k ∉ keysOf l := fun he => hk (mem_keysOf_node.2 (Or.inl he))
    have hkr : k ∉ keysOf r := fun he => hk (mem_keysOf_node.2 (Or.inr (Or.inr he)))
    by_cases hklt : k < p.1
    · rcases ihl hl hkl with ⟨hflag, hio, hent⟩
      have key : inserterNode (Node.int p l r h) k v =
          (rebalanceStep (.int p (inserterNode l k v).1 r h), true,
            (inserterNode l k v).2.2) := by
        rw [inserterNode, if_neg hp, if_pos hklt, if_pos hflag]
      rw [key]
      refine ⟨rfl, ?_, hent⟩
      simp only [inorder_rebalanceStep, inorder]
      rw [hio, insEntry_append_lt v _ _ hklt]
    · have hkgt : p.1 < k := lt_of_le_of_ne (le_of_not_lt hklt) (fun he => hp he.symm)
      rcases ihr hr hkr with ⟨hflag, hio, hent⟩
      have key : inserterNode (Node.int p l r h) k v =
          (rebalanceStep (.int p l (inserterNode r k v).1 h), true,
            (inserterNode r k v).2.2) := by
        rw [inserterNode, if_neg hp, if_neg hklt, if_pos hflag]
      rw [key]
      refine ⟨rfl, ?_, hent⟩
      simp only [inorder_rebalanceStep, inorder]
      rw [hio]
      have hxs : ∀ x ∈ inorder l ++ [p], x.1 < k := by
        intro x hx
        rcases List.mem_append.1 hx with hx | hx
        · exact lt_trans (hlt x.1 (List.mem_map.2 ⟨x, hx, rfl⟩)) hkgt
        · rw [List.mem_singleton.1 hx]
          exact hkgt
      calc inorder l ++ p :: insEntry k v (inorder r)
          = (inorder l ++ [p]) ++ insEntry k v (inorder r) := by simp
        _ = insEntry k v ((inorder l ++ [p]) ++ inorder r) :=
            (insEntry_append_gt v _ hxs).symm
        _ = insEntry k v (inorder l ++ p :: inorder r) := by simp

theorem inserter_absent_isBST {n : Node} {k : Nat} (v : String)
    (hb : isBST n) (hk : k ∉ keysOf n) :
    isBST (inserterNode n k v).1 := by
  have hio := (inserter_absent v hb hk).2.1
  unfold isBST keysOf at hb ⊢
  rw [hio]
  refine pairwise_insEntry ?_ hb
  intro x hx he
  exact hk (List.mem_map.2 ⟨x, hx, he⟩)

/-! Specification of `eraser`. -/

theorem eraseLeftmost_spec (n : Node) (hn : n.isInt = true) :
    inorder n = (eraseLeftmostS n).1 :: inorder (eraseLeftmostS n).2.1 := by
  induction n with
  | ext => simp [Node.isInt, Node.isExt] at hn
  | int p l r h ihl ihr =>
    cases l with
    | ext => simp [eraseLeftmostS, inorder]
    | int q ll lr lh =>
      have hil := ihl (by simp [Node.isInt, Node.isExt])
      show inorder (Node.int q ll lr lh) ++ p :: inorder r =
        (eraseLeftmostS (Node.int q ll lr lh)).1 ::
          (inorder (eraseLeftmostS (Node.int q ll lr lh)).2.1 ++ p :: inorder r)
      rw [hil]
      simp

theorem eraser_inorder {n : Node} {k : Nat} (hb : isBST n) (hk : k ∈ keysOf n) :
    inorder (eraserGo n k).1 = eraseKey k (inorder n) := by
  induction n with
  | ext => simp [keysOf, inorder] at hk
  | int p l r h ihl ihr =>
    rcases isBST_node.1 hb with ⟨hl, hr, hlt, hgt⟩
    by_cases hp : p.1 = k
    · have hnotl : ∀ x ∈ inorder l, x.1 ≠ k := by
        intro x hx
        have := hlt x.1 (List.mem_map.2 ⟨x, hx, rfl⟩)
        omega
      cases l with
      | ext =>
        cases r with
        | ext => simp [eraserGo, hp, Node.isExt, inorder, eraseKey]
        | int wp wl wr wh =>
          simp [eraserGo, hp, Node.isExt, inorder, eraseKey]
      | int q ll lr lh =>
        cases r with
        | ext =>
          have hstep : eraserGo (Node.int p (Node.int q ll lr lh) .ext h) k =
              (Node.int q ll lr lh, Node.int q ll lr lh) := by
            rw [eraserGo]
            simp [hp, Node.isExt]
          rw [hstep]
          show inorder (Node.int q ll lr lh) =
            eraseKey k (inorder (Node.int q ll lr lh) ++ [p])
          rw [eraseKey_append_notin _ hnotl]
          simp [eraseKey, hp]
        | int wp wl wr wh =>
          have hstep : eraserGo
              (Node.int p (Node.int q ll lr lh) (Node.int wp wl wr wh) h) k =
              (Node.int (eraseLeftmostS (Node.int wp wl wr wh)).1
                (Node.int q ll lr lh)
                (eraseLeftmostS (Node.int wp wl wr wh)).2.1 h,
                (eraseLeftmostS (Node.int wp wl wr wh)).2.2) := by
            rw [eraserGo]
            simp [hp, Node.isExt]
          rw [hstep]
          show inorder (Node.int q ll lr lh) ++
              (eraseLeftmostS (Node.int wp wl wr wh)).1 ::
                inorder (eraseLeftmostS (Node.int wp wl wr wh)).2.1 =
            eraseKey k (inorder (Node.int q ll lr lh) ++
              p :: inorder (Node.int wp wl wr wh))
          rw [eraseKey_append_notin _ hnotl,
            ← eraseLeftmost_spec (Node.int wp wl wr wh)
              (by simp [Node.isInt, Node.isExt])]
          simp [eraseKey, hp]
    · by_cases hklt : k < p.1
      · have hkl : k ∈ keysOf l := by
          rcases mem_keysOf_node.1 hk with hx | hx | hx
          · exact hx
          · exact absurd hx.symm hp
          · exact absurd hklt (not_lt_of_gt (hgt k hx))
        rw [eraserGo, if_neg hp, if_pos hklt]
        show inorder (eraserGo l k).1 ++ p :: inorder r =
          eraseKey k (inorder l ++ p :: inorder r)
        rw [ihl hl hkl, eraseKey_append_mem _ hkl]
      · have hkr : k ∈ keysOf r := by
          rcases mem_keysOf_node.1 hk with hx | hx | hx
          · exact absurd (hlt k hx) hklt
          · exact absurd hx.symm hp
          · exact hx
        have hnotl : ∀ x ∈ inorder l ++ [p], x.1 ≠ k := by
          intro x hx
          rcases List.mem_append.1 hx with hx | hx
          · have := hlt x.1 (List.mem_map.2 ⟨x, hx, rfl⟩)
            have hgk : p.1 < k := hgt k hkr
            omega
          · rw [List.mem_singleton.1 hx]
            exact hp
        rw [eraserGo, if_neg hp, if_neg hklt]
        show inorder l ++ p :: inorder (eraserGo r k).1 =
          eraseKey k (inorder l ++ p :: inorder r)
        rw [ihr hr hkr]
        calc inorder l ++ p :: eraseKey k (inorder r)
            = (inorder l ++ [p]) ++ eraseKey k (inorder r) := by simp
          _ = eraseKey k ((inorder l ++ [p]) ++ inorder r) :=
              (eraseKey_append_notin _ hnotl).symm
          _ = eraseKey k (inorder l ++ p :: inorder r) := by simp

theorem eraser_isBST {n : Node} {k : Nat} (hb : isBST n) (hk : k ∈ keysOf n) :
    isBST (eraserGo n k).1 := by
  have hio := eraser_inorder hb hk
  unfold isBST keysOf at hb ⊢
  rw [hio]
  exact hb.sublist ((eraseKey_sublist k (inorder n)).map Prod.fst)

/-! Value overwrites and deep copies. -/

theorem writeValue_inorder {n : Node} (k : Nat) (w : String) (hb : isBST n) :
    inorder (writeValue n k w) =
      (inorder n).map (fun p => if p.1 = k then (p.1, w) else p) := by
  induction n with
  | ext => rfl
  | int p l r h ihl ihr =>
    rcases isBST_node.1 hb with ⟨hl, hr, hlt, hgt⟩
    have hml : p.1 ≤ k → ∀ x ∈ inorder l,
        (fun q => if q.1 = k then (q.1, w) else q) x = x := by
      intro hle x hx
      have := hlt x.1 (List.mem_map.2 ⟨x, hx, rfl⟩)
      simp only [if_neg (by omega : ¬ x.1 = k)]
    have hmr : k ≤ p.1 → ∀ x ∈ inorder r,
        (fun q => if q.1 = k then (q.1, w) else q) x = x := by
      intro hle x hx
      have := hgt x.1 (List.mem_map.2 ⟨x, hx, rfl⟩)
      simp only [if_neg (by omega : ¬ x.1 = k)]
    by_cases hp : p.1 = k
    · rw [writeValue, if_pos hp]
      show inorder l ++ (p.1, w) :: inorder r = _
      simp only [inorder, List.map_append, List.map_cons, if_pos hp]
      rw [List.map_congr_left (hml (le_of_eq hp)),
        List.map_congr_left (hmr (ge_of_eq hp))]
      simp
    · by_cases hklt : k < p.1
      · rw [writeValue, if_neg hp, if_pos hklt]
        show inorder (writeValue l k w) ++ p :: inorder r = _
        simp only [inorder, List.map_append, List.map_cons, if_neg hp]
        rw [ihl hl, List.map_congr_left (hmr (le_of_lt hklt))]
        simp
      · rw [writeValue, if_neg hp, if_neg hklt]
        show inorder l ++ p :: inorder (writeValue r k w) = _
        simp only [inorder, List.map_append, List.map_cons, if_neg hp]
        rw [ihr hr, List.map_congr_left (hml (by omega))]
        simp

theorem writeValue_map_fst (n : Node) (k : Nat) (w : String) :
    (inorder (writeValue n k w)).map Prod.fst = (inorder n).map Prod.fst := by
  induction n with
  | ext => rfl
  | int p l r h ihl ihr =>
    rw [writeValue]
    split_ifs with h1 h2
    · show ((inorder l ++ (p.1, w) :: inorder r).map Prod.fst) = _
      simp [inorder]
    · show ((inorder (writeValue l k w) ++ p :: inorder r).map Prod.fst) = _
      simp [inorder, ihl]
    · show ((inorder l ++ p :: inorder (writeValue r k w)).map Prod.fst) = _
      simp [inorder, ihr]

theorem writeValue_isBST {n : Node} (k : Nat) (w : String) (hb : isBST n) :
    isBST (writeValue n k w) := by
  unfold isBST keysOf at hb ⊢
  rw [writeValue_map_fst]
  exact hb

theorem writeValue_length (n : Node) (k : Nat) (w : String) :
    (inorder (writeValue n k w)).length = (inorder n).length := by
  have h := congrArg List.length (writeValue_map_fst n k w)
  simpa using h

theorem copyNode_inorder (j : Nat) (n : Node) :
    inorder (copyNode j n) = inorder n := by
  induction n with
  | ext => rfl
  | int p l r h ihl ihr => simp [copyNode, inorder, ihl, ihr]

/-! The state invariant maintained by every public operation: the in-order
key sequence is strictly sorted and the redundant `sz` counter agrees with
the number of stored entries. -/

def Inv (t : AVL) : Prop := isBST t.root ∧ t.sz = (inorder t.root).length

theorem insert_inv {t : AVL} (k : Nat) (v : String) (hi : Inv t) :
    Inv (AVL.insert t k v).1 := by
  rcases hi with ⟨hb, hs⟩
  by_cases hk : k ∈ keysOf t.root
  · rcases inserter_found v hb hk with ⟨w, hfe, _⟩
    unfold Inv AVL.insert
    rw [hfe]
    exact ⟨hb, hs⟩
  · rcases inserter_absent v hb hk with ⟨hflag, hio, _⟩
    unfold Inv AVL.insert
    rw [hflag]
    refine ⟨inserter_absent_isBST v hb hk, ?_⟩
    simp [hio, length_insEntry, hs]

theorem erase_inv {t : AVL} (k : Nat) (hi : Inv t) :
    Inv (AVL.erase t k).1 := by
  rcases hi with ⟨hb, hs⟩
  by_cases hk : k ∈ keysOf t.root
  · have hint : (finderNode t.root k).isInt = true := (finder_isInt_iff k hb).2 hk
    unfold Inv AVL.erase
    rw [if_pos hint]
    refine ⟨eraser_isBST hb hk, ?_⟩
    show t.sz - 1 = _
    rw [eraser_inorder hb hk]
    have := length_eraseKey_mem (l := inorder t.root) hk
    omega
  · have hint : ¬ (finderNode t.root k).isInt = true := fun h =>
      hk ((finder_isInt_iff k hb).1 h)
    unfold Inv AVL.erase
    rw [if_neg hint]
    exact ⟨hb, hs⟩

theorem bracketAssign_inv {t : AVL} (k : Nat) (w : String) (hi : Inv t) :
    Inv (AVL.bracketAssign t k w) := by
  have h1 : Inv (AVL.insert t k "").1 := insert_inv k "" hi
  rcases h1 with ⟨hb1, hs1⟩
  refine ⟨writeValue_isBST k w hb1, ?_⟩
  show (AVL.insert t k "").1.sz =
    (inorder (writeValue (AVL.insert t k "").1.root k w)).length
  rw [writeValue_length]
  exact hs1

theorem copy_inv {t : AVL} (j : Nat) (hi : Inv t) : Inv (AVL.copy j t) := by
  rcases hi with ⟨hb, hs⟩
  constructor
  · unfold isBST keysOf at hb ⊢
    show ((inorder (copyNode j t.root)).map Prod.fst).Pairwise _
    rw [copyNode_inorder]
    exact hb
  · show t.sz = (inorder (copyNode j t.root)).length
    rw [copyNode_inorder]
    exact hs

theorem applyOp_inv {t : AVL} (op : Op) (hi : Inv t) : Inv (applyOp t op) := by
  cases op with
  | ins k v => exact insert_inv k v hi
  | del k => exact erase_inv k hi
  | clr => exact ⟨List.Pairwise.nil, rfl⟩
  | setv k w => exact bracketAssign_inv k w hi
  | cpy j => exact copy_inv j hi

theorem runOps_inv (ops : List Op) : Inv (runOps ops) := by
  suffices h : ∀ t, Inv t → Inv (ops.foldl applyOp t) by
    exact h AVL.empty ⟨List.Pairwise.nil, rfl⟩
  induction ops with
  | nil => exact fun t ht => ht
  | cons op ops ih =>
    intro t ht
    exact ih _ (applyOp_inv op ht)

/-! Iteration: the zipper walk implemented by `leftmost` / `inorder_next`
visits exactly the in-order entries. -/

theorem remaining_leftmostPos (n : Node) :
    ∀ c : Ctx, (n.isInt = true ∨ c.isR = false) →
      remaining (leftmostPos c n) = inorder n ++ ctxRest c := by
  induction n with
  | ext =>
    intro c hc
    rcases hc with hc | hc
    · simp [Node.isInt, Node.isExt] at hc
    · cases c with
      | top => simp [leftmostPos, upPos, remaining, inorder, ctxRest]
      | inL p h r c => simp [leftmostPos, upPos, remaining, inorder, ctxRest]
      | inR p h l c => simp [Ctx.isR] at hc
  | int p l r h ihl ihr =>
    intro c hc
    show remaining (leftmostPos (.inL p h r c) l) = _
    rw [ihl (.inL p h r c) (Or.inr rfl)]
    simp [ctxRest, inorder]

theorem remaining_climbPos (c : Ctx) :
    ∀ n : Node, remaining (climbPos c n) = ctxRest c := by
  induction c with
  | top => intro n; rfl
  | inL p h r c ih => intro n; rfl
  | inR p h l c ih =>
    intro n
    show remaining (climbPos c (.int p l n h)) = ctxRest c
    rw [ih]

theorem remaining_nextPos (c : Ctx) (p : Nat × String) (l r : Node) (h : Nat) :
    remaining (nextPos c p l r h) = inorder r ++ ctxRest c := by
  cases r with
  | ext =>
    show remaining (climbPos c (.int p l .ext h)) = _
    rw [remaining_climbPos]
    rfl
  | int q rl rr rh =>
    show remaining (leftmostPos (.inR p h l c) (.int q rl rr rh)) = _
    rw [remaining_leftmostPos _ _ (Or.inl (by simp [Node.isInt, Node.isExt]))]
    rfl

theorem iterFuel_spec : ∀ (f : Nat) (pos : Pos),
    (remaining pos).length ≤ f → iterFuel f pos = remaining pos := by
  intro f
  induction f with
  | zero =>
    intro pos hlen
    cases pos with
    | atEnd => rfl
    | cur c p l r h => simp [remaining] at hlen
  | succ f ih =>
    intro pos hlen
    cases pos with
    | atEnd => rfl
    | cur c p l r h =>
      show p :: iterFuel f (nextPos c p l r h) = p :: (inorder r ++ ctxRest c)
      rw [ih (nextPos c p l r h)
        (by rw [remaining_nextPos]; simpa [remaining] using hlen),
        remaining_nextPos]

theorem leftmostPos_atEnd : ∀ (n : Node) (c : Ctx),
    leftmostPos c n = Pos.atEnd → n = .ext ∧ c = .top := by
  intro n
  induction n with
  | ext =>
    intro c hc
    cases c with
    | top => exact ⟨rfl, rfl⟩
    | inL p h r c => simp [leftmostPos, upPos] at hc
    | inR p h l c => simp [leftmostPos, upPos] at hc
  | int p l r h ihl ihr =>
    intro c hc
    have := ihl (.inL p h r c) hc
    cases this.2

theorem foldl_writeValue_inorder (w : String) :
    ∀ (ks : List Nat) (n : Node), isBST n →
      inorder (ks.foldl (fun m k => writeValue m k w) n) =
        (inorder n).map (fun p => if p.1 ∈ ks then (p.1, w) else p) := by
  intro ks
  induction ks with
  | nil =>
    intro n hb
    simp
  | cons k ks ih =>
    intro n hb
    show inorder (ks.foldl (fun m k => writeValue m k w) (writeValue n k w)) = _
    rw [ih (writeValue n k w) (writeValue_isBST k w hb),
      writeValue_inorder k w hb, List.map_map]
    refine List.map_congr_left ?_
    intro p hp
    by_cases h1 : p.1 = k
    · by_cases h2 : p.1 ∈ ks <;> simp [Function.comp, h1, h2]
    · by_cases h2 : p.1 ∈ ks <;> simp [Function.comp, h1, h2]

/-!
Claim theorems.
-/

/-- C1 (counter-theorem): the claim that after each operation every internal
node satisfies |height(left) − height(right)| ≤ 1 fails on the code:
`eraser` never invokes the rebalancer, so after inserting 2, 1, 3, 0 and
erasing 3 the root has subtree heights 2 and 0. -/
theorem avl_erase_violates_balance :
    balancedAll (runOps
      [.ins 2 "a", .ins 1 "b", .ins 3 "c", .ins 0 "d", .del 3]).root
      = false := rfl

/-- C2 (counter-theorem): the claim that every node's stored height is
correct after each public call fails on the code: `eraser` performs no
height bookkeeping, so after inserting 1, 2, 3 and erasing 3 and then 1 the
root (now with two external children) still stores height 2 instead of 1. -/
theorem avl_erase_leaves_stale_heights :
    heightsOK (runOps
      [.ins 1 "a", .ins 2 "b", .ins 3 "c", .del 3, .del 1]).root
      = false := rfl

/-- C3 (counter-theorem): the claim that erasing key k returns the entry at
k's former in-order successor position (or the end sentinel) fails on the
code: `eraser` returns the promoted sibling `w->remove_above_external()`.
On the map {1 ↦ "a", 2 ↦ "b"}, erasing key 1 removes exactly that entry
(the result holds entry (2, "b") and size 1), yet the returned node is an
external placeholder — not the node with key 2 and not the end sentinel. -/
theorem avl_eraser_returns_external_sibling :
    (eraserGo (runOps [.ins 2 "b", .ins 1 "a"]).root 1).2 = Node.ext ∧
    inorder (AVL.erase (runOps [.ins 2 "b", .ins 1 "a"]) 1).1.root
      = [(2, "b")] ∧
    (AVL.erase (runOps [.ins 2 "b", .ins 1 "a"]) 1).1.sz = 1 :=
  ⟨rfl, rfl, rfl⟩

/-- C4: on a BST-ordered tree, inserting (k, v) when k is already stored
returns the existing entry with inserted = false and mutates nothing (same
tree, same stored value, same size); when k is absent it stores the pair at
its sorted position, increments the size by exactly one, and returns the
new entry with inserted = true. -/
theorem avl_insert_spec (t : AVL) (k : Nat) (v : String) (hb : isBST t.root) :
    (k ∈ keysOf t.root →
      ∃ w, AVL.insert t k v = (t, false, (k, w)) ∧ (k, w) ∈ inorder t.root) ∧
    (k ∉ keysOf t.root →
      (AVL.insert t k v).2.1 = true ∧
      (AVL.insert t k v).1.sz = t.sz + 1 ∧
      inorder (AVL.insert t k v).1.root = insEntry k v (inorder t.root) ∧
      (k, v) ∈ inorder (AVL.insert t k v).1.root ∧
      (AVL.insert t k v).2.2 = (k, v)) := by
  constructor
  · intro hk
    rcases inserter_found v hb hk with ⟨w, hfe, hmem⟩
    refine ⟨w, ?_, hmem⟩
    unfold AVL.insert
    rw [hfe]
    rfl
  · intro hk
    rcases inserter_absent v hb hk with ⟨hflag, hio, hent⟩
    have hsz : (AVL.insert t k v).1.sz = t.sz + 1 := by
      show (if (inserterNode t.root k v).2.1 then t.sz + 1 else t.sz) = t.sz + 1
      rw [hflag]
      rfl
    have hroot : inorder (AVL.insert t k v).1.root = insEntry k v (inorder t.root) := hio
    refine ⟨hflag, hsz, hroot, ?_, hent⟩
    rw [hroot]
    exact mem_insEntry.2 (Or.inl rfl)

/-- C4 witness: inserting the absent key 4 into the concrete three-entry
map stores (4, "d"), bumps the size from 3 to 4 and reports inserted. -/
theorem avl_insert_spec_witness :
    (AVL.insert sampleMap 4 "d").2.1 = true ∧
    (AVL.insert sampleMap 4 "d").1.sz = sampleMap.sz + 1 ∧
    inorder (AVL.insert sampleMap 4 "d").1.root =
      insEntry 4 "d" (inorder sampleMap.root) ∧
    (4, "d") ∈ inorder (AVL.insert sampleMap 4 "d").1.root ∧
    (AVL.insert sampleMap 4 "d").2.2 = (4, "d") :=
  (avl_insert_spec sampleMap 4 "d" (by decide)).2 (by decide)

/-- C5: a copy of a BST-ordered map (copy construction; the heights of the
cloned nodes are an arbitrary junk value j, since the node copy constructor
never writes the height field) has the same size and the same key/value
entries, and overwriting every value of the copy with "w" yields exactly
the source's key sequence paired with "w" — the source's entry list appears
unchanged on the right-hand sides. -/
theorem avl_copy_deep_spec (t : AVL) (j : Nat) (w : String)
    (hb : isBST t.root) :
    (AVL.copy j t).sz = t.sz ∧
    inorder (AVL.copy j t).root = inorder t.root ∧
    inorder (overwriteAll (AVL.copy j t) w).root =
      (inorder t.root).map (fun p => (p.1, w)) := by
  refine ⟨rfl, copyNode_inorder j t.root, ?_⟩
  have hbc : isBST (copyNode j t.root) := by
    unfold isBST keysOf at hb ⊢
    rw [copyNode_inorder]
    exact hb
  show inorder ((keysOf (copyNode j t.root)).foldl
      (fun m k => writeValue m k w) (copyNode j t.root)) = _
  rw [foldl_writeValue_inorder w _ _ hbc, copyNode_inorder]
  have hkeys : keysOf (copyNode j t.root) = keysOf t.root := by
    unfold keysOf
    rw [copyNode_inorder]
  rw [hkeys]
  refine List.map_congr_left ?_
  intro p hp
  have hpk : p.1 ∈ keysOf t.root := List.mem_map.2 ⟨p, hp, rfl⟩
  rw [if_pos hpk]

/-- C5 witness: copying the concrete three-entry map (junk height 7) and
overwriting every value of the copy with "w". -/
theorem avl_copy_deep_spec_witness :
    (AVL.copy 7 sampleMap).sz = sampleMap.sz ∧
    inorder (AVL.copy 7 sampleMap).root = inorder sampleMap.root ∧
    inorder (overwriteAll (AVL.copy 7 sampleMap) "w").root =
      (inorder sampleMap.root).map (fun p => (p.1, "w")) :=
  avl_copy_deep_spec sampleMap 7 "w" (by decide)

/-- C6 (read direction of the claim): on a BST-ordered tree, `at(k)` throws
out_of_range exactly when k is absent (leaving the tree untouched — the
lookup has no side effect on the tree), and when k is stored the value read
through the returned reference is the stored mapped value.  (The write
direction of the claim is false on the code: `at` returns a reference into
a freshly allocated copy of the entry, see the C6 analysis.) -/
theorem avl_at_read_spec (t : AVL) (k : Nat) (hb : isBST t.root) :
    (atRead t k = none ↔ k ∉ keysOf t.root) ∧
    (∀ v, (k, v) ∈ inorder t.root → atRead t k = some v) := by
  have hfound : ∀ (hk : k ∈ keysOf t.root),
      ∃ v, atRead t k = some v ∧ (k, v) ∈ inorder t.root := by
    intro hk
    rcases finder_mem hb hk with ⟨v, l, r, h, hfe, hmem⟩
    refine ⟨v, ?_, hmem⟩
    unfold atRead
    rw [hfe]
  have habsent : k ∉ keysOf t.root → atRead t k = none := by
    intro hk
    have hext : finderNode t.root k = .ext := by
      cases hfn : finderNode t.root k with
      | ext => rfl
      | int p l r h =>
        exact absurd ((finder_isInt_iff k hb).1 (by rw [hfn]; rfl)) hk
    unfold atRead
    rw [hext]
  constructor
  · constructor
    · intro hnone hk
      rcases hfound hk with ⟨v, hv, _⟩
      rw [hv] at hnone
      cases hnone
    · exact habsent
  · intro v hv
    have hk : k ∈ keysOf t.root := mem_keysOf_iff_mem_inorder.2 ⟨v, hv⟩
    rcases hfound hk with ⟨w, hw, hwm⟩
    rw [hw, pairwise_key_unique hb hwm hv]

/-- C6 witness: on the concrete map, reading key 2 yields its stored value
and reading the absent key 5 fails. -/
theorem avl_at_read_spec_witness :
    atRead sampleMap 2 = some "b" ∧ atRead sampleMap 5 = none :=
  ⟨(avl_at_read_spec sampleMap 2 (by decide)).2 "b" (by decide),
    (avl_at_read_spec sampleMap 5 (by decide)).1.2 (by decide)⟩

/-- C7: on a BST-ordered tree, erase(k) returns the count actually removed:
when k is absent the result is the identical map and count 0; when k is
stored the count is 1, exactly the entry with key k disappears from the
in-order entry list, and the size drops by one. -/
theorem avl_erase_key_spec (t : AVL) (k : Nat) (hb : isBST t.root) :
    (k ∉ keysOf t.root → AVL.erase t k = (t, 0)) ∧
    (k ∈ keysOf t.root →
      (AVL.erase t k).2 = 1 ∧
      inorder (AVL.erase t k).1.root = eraseKey k (inorder t.root) ∧
      (AVL.erase t k).1.sz = t.sz - 1) := by
  constructor
  · intro hk
    have hint : ¬ (finderNode t.root k).isInt = true := fun h =>
      hk ((finder_isInt_iff k hb).1 h)
    unfold AVL.erase
    rw [if_neg hint]
  · intro hk
    have hint : (finderNode t.root k).isInt = true := (finder_isInt_iff k hb).2 hk
    unfold AVL.erase
    rw [if_pos hint]
    exact ⟨rfl, eraser_inorder hb hk, rfl⟩

/-- C7 witness: on the concrete map, erasing the absent key 9 returns count
0 with the map unchanged, and erasing the stored key 2 returns count 1. -/
theorem avl_erase_key_spec_witness :
    AVL.erase sampleMap 9 = (sampleMap, 0) ∧
    (AVL.erase sampleMap 2).2 = 1 ∧
    inorder (AVL.erase sampleMap 2).1.root =
      eraseKey 2 (inorder sampleMap.root) ∧
    (AVL.erase sampleMap 2).1.sz = sampleMap.sz - 1 :=
  ⟨(avl_erase_key_spec sampleMap 9 (by decide)).1 (by decide),
    (avl_erase_key_spec sampleMap 2 (by decide)).2 (by decide)⟩

/-- C8: after every sequence of public operations, the in-order key
sequence is strictly increasing, its length equals size(), and the forward
iteration — begin() = `root->leftmost()`, then `inorder_next` until the
super-root/end() — visits exactly the stored entries in that order. -/
theorem avl_iteration_sorted_spec (ops : List Op) :
    ((inorder (runOps ops).root).map Prod.fst).Pairwise (· < ·) ∧
    (inorder (runOps ops).root).length = (runOps ops).sz ∧
    iterFuel ((runOps ops).sz + 1) (beginPos (runOps ops).root) =
      inorder (runOps ops).root := by
  rcases runOps_inv ops with ⟨hb, hs⟩
  refine ⟨hb, hs.symm, ?_⟩
  have h1 : remaining (beginPos (runOps ops).root) = inorder (runOps ops).root := by
    unfold beginPos
    rw [remaining_leftmostPos _ Ctx.top (Or.inr rfl)]
    simp [ctxRest]
  have h2 : (remaining (beginPos (runOps ops).root)).length ≤
      (runOps ops).sz + 1 := by
    rw [h1, ← hs]
    omega
  rw [iterFuel_spec _ _ h2, h1]

/-- C9: for every reachable state, begin() equals end() (the super-root
position) exactly when size() is 0; in particular a default-constructed map
and any map right after clear() satisfy begin() = end(). -/
theorem avl_begin_eq_end_iff_empty (ops : List Op) (t : AVL) :
    (beginPos (runOps ops).root = Pos.atEnd ↔ (runOps ops).sz = 0) ∧
    AVL.clear t = AVL.empty ∧
    beginPos (AVL.clear t).root = Pos.atEnd ∧
    beginPos AVL.empty.root = Pos.atEnd := by
  rcases runOps_inv ops with ⟨hb, hs⟩
  refine ⟨⟨?_, ?_⟩, rfl, rfl, rfl⟩
  · intro hend
    have hext := leftmostPos_atEnd _ _ hend
    rw [hs, hext.1]
    rfl
  · intro hsz
    have hlen : (inorder (runOps ops).root).length = 0 := by omega
    have hext : (runOps ops).root = .ext :=
      inorder_eq_nil_iff.1 (List.length_eq_zero.1 hlen)
    rw [hext]
    rfl

/-- C10: copy assignment is self-assignment-safe: when the pointer identity
test this == &m holds, `operator=` is a no-op, so t = t leaves the map
literally unchanged (same size, same entries, no node destroyed); when the
test fails, the assignment installs a deep copy with the source's entries
and size. -/
theorem avl_self_assign_identity (t s : AVL) (j : Nat) :
    assignOp t t true j = t ∧
    inorder (assignOp t s false j).root = inorder s.root ∧
    (assignOp t s false j).sz = s.sz :=
  ⟨rfl, copyNode_inorder j s.root, rfl⟩

end MystlAvl
